import Mathlib

/-
Verification of the custom growable vector library (src/lib.rs, src/raw_vec.rs,
src/iter.rs) against its natural-language specification.

The Rust code is shallowly embedded as follows:

* machine integers (usize/isize) are modelled as Nat together with the explicit
  constants usizeMax and isizeMax; checked arithmetic that panics is modelled by
  Option-returning functions, saturating arithmetic by satAdd/satMul;
* the raw heap buffer of RawVec<T> is modelled as a total function
  mem : Nat -> Option alpha, where some v means the cell currently holds the bit
  pattern of v and none means the cell is uninitialized; ptr::read and ptr::copy
  leave the source cells unchanged (a byte-level move leaves stale bytes behind),
  and drop_in_place does not change the modelled cell contents;
* size_of::<T>() is an explicit parameter esz of every operation whose behaviour
  depends on it (the growth policy is size-tiered);
* debug_assert! checks are elided, matching release builds (spec section 7 calls
  them debug-only); assert!, expect and panic! are modelled by returning none;
* the allocator is assumed to always succeed; the allocs field counts the number
  of allocator interactions (alloc / realloc / dealloc groups) performed on
  behalf of a buffer, and is used to state that zero-sized-element code paths
  never call the allocator;
* the two f64 ratio comparisons in should_shrink (usage_ratio < 0.25 and
  waste_ratio > 0.25) are modelled by the exact rational comparisons
  4 * len < cap and 4 * len < 3 * cap.
-/

namespace CustomVector

/-- Largest value of usize on the 64-bit platform targeted by the code. -/
def usizeMax : Nat := 2 ^ 64 - 1

/-- Largest value of isize on the 64-bit platform targeted by the code. -/
def isizeMax : Nat := 2 ^ 63 - 1

/-- RawVec::MIN_NON_ZERO_CAP, the minimum non-zero capacity. -/
def MIN_NON_ZERO_CAP : Nat := 8

/-- RawVec::MAX_EXCESS_CAPACITY, 1 MB worth of elements. -/
def MAX_EXCESS_CAPACITY : Nat := 1024 * 1024

/-- RawVec::MAX_CAPACITY on a 64-bit platform, 1 << 48. -/
def MAX_CAPACITY : Nat := 2 ^ 48

/-- usize::saturating_add. -/
def satAdd (a b : Nat) : Nat := min (a + b) usizeMax

/-- usize::saturating_mul. -/
def satMul (a b : Nat) : Nat := min (a * b) usizeMax

/-- Fuel-driven computation of the least power of two that is at least n
(acc scans 1, 2, 4, ...; n steps of doubling always suffice). -/
def np2go : Nat → Nat → Nat → Nat
  | 0, _, acc => acc
  | fuel + 1, n, acc => if n ≤ acc then acc else np2go fuel n (2 * acc)

/-- Mathematical next power of two: the least power of two that is ≥ max n 1. -/
def nextPow2 (n : Nat) : Nat := np2go n n 1

/-- usize::next_power_of_two: equal to nextPow2 in range; when the true next
power of two does not fit in usize (n > 2^63) the release build wraps to 0. -/
def nextPow2U (n : Nat) : Nat := if n ≤ 2 ^ 63 then nextPow2 n else 0

/-- Model of RawVec<T>: the backing buffer as a map from cell index to its
current (optional) contents, the allocated capacity, and a ghost counter of
allocator interactions performed on behalf of this buffer. -/
structure RawVec (α : Type) where
  mem : Nat → Option α
  cap : Nat
  allocs : Nat

/-- RawVec::calculate_growth (raw_vec.rs lines 22-60): size-tiered growth
policy. cap is self.cap; esz is size_of::<T>(). waste * elem_size is an
unchecked u64 multiplication in the source; it is modelled exactly, which
agrees with the source for every capacity a 64-bit process can allocate. -/
def calculate_growth (esz cap required_cap : Nat) : Nat :=
  let min_growth :=
    if 1024 < esz then
      min (satAdd cap (cap / 4)) required_cap
    else if 128 < esz then
      min (satAdd cap (cap / 2)) required_cap
    else
      satMul cap 2
  let new_cap := if esz ≤ 128 then max min_growth required_cap else min_growth
  let new_cap2 :=
    if esz ≤ 128 then
      let p := nextPow2U new_cap
      let waste := p - new_cap
      if p ≤ satAdd new_cap (new_cap / 8) ∧ waste * esz ≤ 16 * 1024 then p
      else new_cap
    else new_cap
  min new_cap2 MAX_CAPACITY

/-- RawVec::new (raw_vec.rs lines 62-75): capacity 0, no allocation (the
null/dangling pointer distinction for zero-sized T has no observable effect
at this level of the model). -/
def RawVec.new : RawVec α := ⟨fun _ => none, 0, 0⟩

/-- RawVec::with_capacity (raw_vec.rs lines 77-110). Zero-sized elements get
the usize::MAX sentinel capacity and no allocation; otherwise a zero request is
bumped to MIN_NON_ZERO_CAP, and Layout::array fails fatally (none) when the
byte size overflows isize::MAX. -/
def RawVec.with_capacity (esz n : Nat) : Option (RawVec α) :=
  if esz = 0 then some ⟨fun _ => none, usizeMax, 0⟩
  else
    let c := if n = 0 then MIN_NON_ZERO_CAP else n
    if c * esz ≤ isizeMax then some ⟨fun _ => none, c, 1⟩ else none

/-- RawVec::grow_to (raw_vec.rs lines 153-215). If the requested layout is too
large, it retries once at max_elements (or returns unchanged if the current
capacity already reaches it); otherwise it reallocates, preserving the bytes of
the cells below min(old capacity, new capacity). -/
def RawVec.grow_to (esz : Nat) (rv : RawVec α) (new_cap : Nat) : RawVec α :=
  if esz = 0 then { rv with cap := new_cap }
  else if isizeMax < new_cap * esz then
    let max_elements := min (isizeMax / esz) MAX_CAPACITY
    if max_elements ≤ rv.cap then rv
    else ⟨fun j => if j < min rv.cap max_elements then rv.mem j else none,
          max_elements, rv.allocs + 1⟩
  else
    ⟨fun j => if j < min rv.cap new_cap then rv.mem j else none,
     new_cap, rv.allocs + 1⟩

/-- RawVec::reserve (raw_vec.rs lines 116-151). Note that the required capacity
is computed from the current capacity (not from the logical length, which
RawVec does not know). -/
def RawVec.reserve (esz : Nat) (rv : RawVec α) (additional : Nat) : RawVec α :=
  if esz = 0 then { rv with cap := usizeMax }
  else
    let required_cap :=
      if rv.cap + additional ≤ usizeMax then rv.cap + additional
      else MAX_CAPACITY
    let max_elements := min (isizeMax / max esz 1) MAX_CAPACITY
    let capped_required := min required_cap max_elements
    if capped_required ≤ rv.cap then rv
    else if rv.cap = 0 then
      rv.grow_to esz (nextPow2U (max capped_required MIN_NON_ZERO_CAP))
    else
      rv.grow_to esz (calculate_growth esz rv.cap capped_required)

/-- RawVec::should_shrink (raw_vec.rs lines 217-238), with the two f64 ratio
comparisons modelled exactly: len/cap < 0.25 becomes 4*len < cap and
1 - len/cap > 0.25 becomes 4*len < 3*cap. -/
def should_shrink (esz cap len : Nat) : Bool :=
  if esz = 0 then false
  else
    let waste := cap - len
    let waste_bytes := waste * esz
    if (MAX_EXCESS_CAPACITY < waste_bytes ∧ 4 * len < 3 * cap) ∨ 4 * len < cap
    then true else false

/-- RawVec::shrink_to_fit (raw_vec.rs lines 240-278). On an actual shrink only
the first len cells are copied into the new allocation; the remaining cells of
the new buffer are uninitialized. -/
def RawVec.shrink_to_fit (esz : Nat) (rv : RawVec α) (len : Nat) : RawVec α :=
  if esz = 0 then { rv with cap := usizeMax }
  else if rv.cap - rv.cap / 4 ≤ len then rv
  else if should_shrink esz rv.cap len then
    let new_cap := max (nextPow2U len) MIN_NON_ZERO_CAP
    if new_cap < rv.cap then
      ⟨fun j => if j < len then rv.mem j else none, new_cap, rv.allocs + 2⟩
    else rv
  else rv

/-- RawVec::read_at (raw_vec.rs lines 285-295): ptr::read of cell i. The cell
keeps its bytes; reading an uninitialized cell yields none. -/
def RawVec.read_at (rv : RawVec α) (i : Nat) : Option α := rv.mem i

/-- RawVec::write_at (raw_vec.rs lines 297-307): ptr::write of cell i. -/
def RawVec.write_at (rv : RawVec α) (i : Nat) (x : α) : RawVec α :=
  { rv with mem := fun j => if j = i then some x else rv.mem j }

/-- RawVec::shift_right (raw_vec.rs lines 331-357): relocate count cells
starting at index up by places, reserving extra capacity first when the
destination end exceeds the current capacity. The checked position arithmetic
panics (none) on usize overflow. ptr::copy(src, dst, count) behaves like
memmove. -/
def RawVec.shift_right (esz : Nat) (rv : RawVec α) (index count places : Nat) :
    Option (RawVec α) :=
  if usizeMax < index + places + count then none
  else
    let new_end := index + places + count
    let rv2 := if rv.cap < new_end then rv.reserve esz (new_end - rv.cap) else rv
    some { rv2 with mem := (fun j =>
      if index + places ≤ j ∧ j < index + places + count then rv2.mem (j - places)
      else rv2.mem j) }


/-- RawVec::shift_left (raw_vec.rs lines 359-384): relocate count cells
starting at index down by places; an early return makes count = 0 a complete
no-op, and checked_sub panics (none) when places exceeds index. -/
def RawVec.shift_left (rv : RawVec α) (index count places : Nat) :
    Option (RawVec α) :=
  if count = 0 then some rv
  else if index < places then none
  else
    let new_index := index - places
    some { rv with mem := (fun j =>
      if new_index ≤ j ∧ j < new_index + count then rv.mem (j + places)
      else rv.mem j) }

/-- RawVec::clone for T: Clone (raw_vec.rs lines 404-412): allocate a fresh
buffer of the same capacity and copy every cell 0..cap (including the
unoccupied ones - the source loops to self.cap, not to the logical length). -/
def RawVec.clone (esz : Nat) (rv : RawVec α) : Option (RawVec α) :=
  (RawVec.with_capacity (α := α) esz rv.cap).map fun nv =>
    { nv with mem := fun j => if j < rv.cap then rv.mem j else none }

/-- Model of Vec<T> (lib.rs lines 12-15): a RawVec plus the logical length. -/
structure Vec (α : Type) where
  buf : RawVec α
  len : Nat

/-- Vec::new (lib.rs lines 18-23). -/
def Vec.new : Vec α := ⟨RawVec.new, 0⟩

/-- Vec::with_capacity (lib.rs lines 25-30). -/
def Vec.with_capacity (esz n : Nat) : Option (Vec α) :=
  (RawVec.with_capacity esz n).map fun b => ⟨b, 0⟩

/-- Vec::reserve (lib.rs lines 44-46). -/
def Vec.reserve (esz : Nat) (v : Vec α) (additional : Nat) : Vec α :=
  { v with buf := v.buf.reserve esz additional }

/-- Vec::push (lib.rs lines 48-57): grow by max(1, cap/2) when full, write at
len, then increment len with a checked add (none on usize overflow). -/
def Vec.push (esz : Nat) (v : Vec α) (x : α) : Option (Vec α) :=
  let v2 := if v.len = v.buf.cap then v.reserve esz (max 1 (v.buf.cap / 2)) else v
  if v2.len + 1 ≤ usizeMax then some ⟨v2.buf.write_at v2.len x, v2.len + 1⟩
  else none

/-- Vec::pop (lib.rs lines 59-66): returns the container state and the popped
element (none when empty). -/
def Vec.pop (v : Vec α) : Vec α × Option α :=
  if v.len = 0 then (v, none)
  else ({ v with len := v.len - 1 }, v.buf.read_at (v.len - 1))

/-- Vec::insert (lib.rs lines 68-86): panics (none) when index > len, grows
when full, opens a one-wide gap with shift_right, writes, increments len. -/
def Vec.insert (esz : Nat) (v : Vec α) (index : Nat) (x : α) : Option (Vec α) :=
  if v.len < index then none
  else
    let v2 := if v.len = v.buf.cap then v.reserve esz (max 1 (v.buf.cap / 2)) else v
    match v2.buf.shift_right esz index (v2.len - index) 1 with
    | none => none
    | some buf =>
      if v2.len + 1 ≤ usizeMax then some ⟨buf.write_at index x, v2.len + 1⟩
      else none

/-- Vec::remove (lib.rs lines 89-102): panics (none) when index >= len, reads
the element, closes the gap with shift_left, decrements len. -/
def Vec.remove (v : Vec α) (index : Nat) : Option (Option α × Vec α) :=
  if v.len ≤ index then none
  else
    let item := v.buf.read_at index
    match v.buf.shift_left (index + 1) (v.len - (index + 1)) 1 with
    | none => none
    | some buf => some (item, ⟨buf, v.len - 1⟩)

/-- Vec::shrink_to_fit (lib.rs lines 104-106). -/
def Vec.shrink_to_fit (esz : Nat) (v : Vec α) : Vec α :=
  { v with buf := v.buf.shrink_to_fit esz v.len }

/-- The effect of k consecutive Vec::pop calls (popped values are dropped). -/
def Vec.popN (v : Vec α) : Nat → Vec α
  | 0 => v
  | k + 1 => (v.pop).1.popN k

/-- Vec::truncate (lib.rs lines 108-118): pop until the length reaches the
target (the while loop runs len - target times), then shrink when the new
length is below a quarter of the capacity. -/
def Vec.truncate (esz : Nat) (v : Vec α) (n : Nat) : Vec α :=
  let v2 := v.popN (v.len - n)
  if v2.len < v2.buf.cap / 4 then v2.shrink_to_fit esz else v2

/-- Vec::clear (lib.rs lines 120-123): pop every element, never shrink. -/
def Vec.clear (v : Vec α) : Vec α := v.popN v.len

/-- Sequentially push every element of a list (the loop body of extend). -/
def Vec.pushList (esz : Nat) (v : Vec α) : List α → Option (Vec α)
  | [] => some v
  | x :: xs =>
    match v.push esz x with
    | none => none
    | some v2 => v2.pushList esz xs

/-- Extend for Vec (lib.rs lines 226-236) applied to a list-like iterator
whose size_hint upper bound is its exact length: reserve then push each. -/
def Vec.extend (esz : Nat) (v : Vec α) (xs : List α) : Option (Vec α) :=
  (v.reserve esz xs.length).pushList esz xs

/-- Model of Drain<'a, T> (iter.rs lines 22-28): the borrowed buffer, the
cursor window start/endi, the original container length len, and the captured
original_start. -/
structure Drain (α : Type) where
  buf : RawVec α
  start : Nat
  endi : Nat
  len : Nat
  original_start : Nat

/-- Iterator::next for Drain (iter.rs lines 113-124): yield the cell at start
and advance start (the cell keeps its stale bytes). -/
def Drain.next (d : Drain α) : Drain α × Option α :=
  if d.start = d.endi then (d, none)
  else ({ d with start := d.start + 1 }, d.buf.read_at d.start)

/-- DoubleEndedIterator::next_back for Drain (iter.rs lines 142-152):
decrement endi and yield the cell there. -/
def Drain.next_back (d : Drain α) : Drain α × Option α :=
  if d.start = d.endi then (d, none)
  else ({ d with endi := d.endi - 1 }, d.buf.read_at (d.endi - 1))

/-- Run a sequence of iterator steps on a Drain: true is a forward next, false
is a next_back; the chronological list of step results is returned. -/
def Drain.steps (d : Drain α) : List Bool → Drain α × List (Option α)
  | [] => (d, [])
  | s :: rest =>
    let p := if s then d.next else d.next_back
    let q := p.1.steps rest
    (q.1, p.2 :: q.2)

/-- Drop for Drain (iter.rs lines 154-174): drop the never-yielded elements
still inside [start, endi) (destructors do not change the modelled cell
contents), then, if cells remain above the current endi, shift them down by
endi - original_start. -/
def Drain.drop (d : Drain α) : Option (RawVec α) :=
  let tail_remaining := d.len - d.endi
  if 0 < tail_remaining then
    d.buf.shift_left d.endi tail_remaining (d.endi - d.original_start)
  else some d.buf

/-- Vec::drain (lib.rs lines 134-152) followed by a sequence of iterator steps
and the Drain drop: the range asserts are modelled by none, the container
length is reduced up front, and the buffer as compacted by the drop is handed
back to the container. Returns the final container and the step results. -/
def Vec.drain_run (v : Vec α) (a b : Nat) (moves : List Bool) :
    Option (Vec α × List (Option α)) :=
  if a ≤ b ∧ b ≤ v.len then
    let d0 : Drain α := ⟨v.buf, a, b, v.len, a⟩
    let q := d0.steps moves
    match q.1.drop with
    | some buf => some (⟨buf, v.len - (b - a)⟩, q.2)
    | none => none
  else none

/-- Clone for Vec (lib.rs lines 198-205): clone the buffer, copy the length. -/
def Vec.clone (esz : Nat) (v : Vec α) : Option (Vec α) :=
  (v.buf.clone esz).map fun b => ⟨b, v.len⟩

/-- The public mutating operations of the container, used to express
reachability of states by arbitrary call sequences. -/
inductive Op (α : Type) where
  | push (x : α)
  | pop
  | insert (i : Nat) (x : α)
  | remove (i : Nat)
  | truncate (n : Nat)
  | clear
  | shrink
  | reserveOp (n : Nat)
  | extendOp (xs : List α)
  | drainOp (a b : Nat) (moves : List Bool)

/-- Execute one public operation; none models a panic. -/
def execOp (esz : Nat) (v : Vec α) : Op α → Option (Vec α)
  | .push x => v.push esz x
  | .pop => some (v.pop).1
  | .insert i x => v.insert esz i x
  | .remove i => (v.remove i).map (fun r => r.2)
  | .truncate n => some (v.truncate esz n)
  | .clear => some v.clear
  | .shrink => some (v.shrink_to_fit esz)
  | .reserveOp n => some (v.reserve esz n)
  | .extendOp xs => v.extend esz xs
  | .drainOp a b moves => (v.drain_run a b moves).map (fun r => r.1)

/-- Execute a sequence of public operations. -/
def execOps (esz : Nat) (v : Vec α) : List (Op α) → Option (Vec α)
  | [] => some v
  | op :: rest =>
    match execOp esz v op with
    | none => none
    | some v2 => execOps esz v2 rest

/-- Observable contents of the container: the cells at logical indices
0..len. -/
def Vec.toListO (v : Vec α) : List (Option α) :=
  (List.range v.len).map v.buf.mem

/-- Test fixture: a container whose buffer cells hold the elements of xs, with
logical length l (l ≤ xs.length leaves stale cells above the length, exactly
like a container that popped down to l). -/
def bufVec (xs : List α) (l : Nat) : Vec α :=
  ⟨⟨fun j => xs[j]?, xs.length, 1⟩, l⟩

/-- Test fixture: a full container holding exactly xs at capacity. -/
def mkVec (xs : List α) : Vec α := bufVec xs xs.length

/-- Invariant maintained by every zero-sized-element container state: the
allocator has never been called and the reported capacity is either the
initial 0 of RawVec::new or the usize::MAX sentinel. -/
def zstInv (v : Vec α) : Prop :=
  v.buf.allocs = 0 ∧ (v.buf.cap = 0 ∨ v.buf.cap = usizeMax)

/-! Helper lemmas about the capacity policy. -/

theorem np2go_ge (fuel : Nat) : ∀ n acc : Nat, n ≤ 2 ^ fuel * acc →
    n ≤ np2go fuel n acc := by
  induction fuel with
  | zero => intro n acc h; simpa [np2go] using h
  | succ f ih =>
    intro n acc h
    unfold np2go
    by_cases hna : n ≤ acc
    · simp [hna]
    · simp only [hna, if_false]
      apply ih
      rw [pow_succ] at h
      calc n ≤ 2 ^ f * 2 * acc := h
        _ = 2 ^ f * (2 * acc) := by ring

theorem np2go_le (fuel : Nat) : ∀ n acc : Nat, acc ≤ 2 * n →
    np2go fuel n acc ≤ 2 * n := by
  induction fuel with
  | zero => intro n acc h; simpa [np2go] using h
  | succ f ih =>
    intro n acc h
    unfold np2go
    by_cases hna : n ≤ acc
    · simpa [hna] using h
    · simp only [hna, if_false]
      exact ih n (2 * acc) (by omega)

theorem nextPow2_ge (n : Nat) : n ≤ nextPow2 n := by
  have h := Nat.lt_two_pow n
  exact np2go_ge n n 1 (by omega)

theorem nextPow2_le (n : Nat) (h : 1 ≤ n) : nextPow2 n ≤ 2 * n :=
  np2go_le n n 1 (by omega)

theorem nextPow2U_eq (n : Nat) (h : n ≤ 2 ^ 63) : nextPow2U n = nextPow2 n :=
  if_pos h

theorem satAdd_eq (a b : Nat) (h : a + b ≤ usizeMax) : satAdd a b = a + b :=
  min_eq_left h

theorem satMul_eq (a b : Nat) (h : a * b ≤ usizeMax) : satMul a b = a * b :=
  min_eq_left h

theorem calculate_growth_ge (esz cap required : Nat) (h1 : 0 < esz)
    (h2 : esz ≤ 128) (hc : cap ≤ MAX_CAPACITY) (hr : required ≤ MAX_CAPACITY) :
    required ≤ calculate_growth esz cap required := by
  unfold calculate_growth
  have hcap : ¬ 1024 < esz := by omega
  have hcap2 : ¬ 128 < esz := by omega
  have hmul : satMul cap 2 = cap * 2 := by
    apply satMul_eq
    unfold MAX_CAPACITY at hc
    unfold usizeMax
    omega
  simp only [hcap, hcap2, if_false, if_true, h2, if_pos]
  have hle : max (satMul cap 2) required ≤ 2 ^ 63 := by
    rw [hmul]
    unfold MAX_CAPACITY at hc hr
    omega
  rw [nextPow2U_eq _ hle]
  have hge := nextPow2_ge (max (satMul cap 2) required)
  have hr2 : required ≤ max (satMul cap 2) required := le_max_right _ _
  split
  · exact le_min (le_trans hr2 hge) hr
  · exact le_min hr2 hr

theorem calculate_growth_push_bounds (esz cap required : Nat) (h1 : 0 < esz)
    (h2 : esz ≤ 128) (hc : cap ≤ 2 ^ 46) (h0 : 0 < cap)
    (hru : required ≤ 2 * cap) :
    2 * cap ≤ calculate_growth esz cap required ∧
      calculate_growth esz cap required ≤ 2 * cap + cap / 4 := by
  unfold calculate_growth
  have hcap : ¬ 1024 < esz := by omega
  have hcap2 : ¬ 128 < esz := by omega
  have hmul : satMul cap 2 = cap * 2 := by
    apply satMul_eq
    unfold usizeMax
    omega
  simp only [hcap, hcap2, if_false, if_true, h2, if_pos]
  have hmax : max (satMul cap 2) required = cap * 2 := by
    rw [hmul]
    omega
  rw [hmax]
  have hle : cap * 2 ≤ 2 ^ 63 := by omega
  rw [nextPow2U_eq _ hle]
  have hge := nextPow2_ge (cap * 2)
  have hsat : satAdd (cap * 2) (cap * 2 / 8) = cap * 2 + cap * 2 / 8 := by
    apply satAdd_eq
    unfold usizeMax
    omega
  have hdiv : cap * 2 / 8 = cap / 4 := by omega
  constructor
  · apply le_min
    · split
      · omega
      · omega
    · unfold MAX_CAPACITY
      omega
  · have hub : (if nextPow2 (cap * 2) ≤ satAdd (cap * 2) (cap * 2 / 8) ∧
        (nextPow2 (cap * 2) - cap * 2) * esz ≤ 16 * 1024 then nextPow2 (cap * 2)
        else cap * 2) ≤ 2 * cap + cap / 4 := by
      split
      · rename_i hcond
        rw [hsat, hdiv] at hcond
        omega
      · omega
    exact le_trans (min_le_left _ _) hub

theorem calculate_growth_le (esz cap required : Nat) :
    calculate_growth esz cap required ≤ MAX_CAPACITY := by
  unfold calculate_growth
  exact min_le_right _ _

theorem grow_to_spec (esz : Nat) (rv : RawVec α) (new_cap : Nat)
    (h1 : 0 < esz) (h : new_cap * esz ≤ isizeMax) :
    (rv.grow_to esz new_cap).cap = new_cap ∧
      (rv.grow_to esz new_cap).allocs = rv.allocs + 1 ∧
      ∀ j, j < min rv.cap new_cap → (rv.grow_to esz new_cap).mem j = rv.mem j := by
  unfold RawVec.grow_to
  have hesz : ¬ esz = 0 := by omega
  have h2 : ¬ isizeMax < new_cap * esz := by omega
  rw [if_neg hesz, if_neg h2]
  refine ⟨rfl, rfl, ?_⟩
  intro j hj
  simp [hj]

theorem reserve_spec (esz : Nat) (rv : RawVec α) (additional : Nat)
    (h1 : 0 < esz) (h2 : esz ≤ 128) (h3 : rv.cap + additional ≤ MAX_CAPACITY) :
    rv.cap + additional ≤ (rv.reserve esz additional).cap ∧
      (rv.reserve esz additional).cap ≤ 2 ^ 49 ∧
      ∀ j, j < rv.cap → (rv.reserve esz additional).mem j = rv.mem j := by
  have hMAX : MAX_CAPACITY = 2 ^ 48 := rfl
  unfold RawVec.reserve
  have hesz : ¬ esz = 0 := by omega
  have hreq : (if rv.cap + additional ≤ usizeMax then rv.cap + additional
      else MAX_CAPACITY) = rv.cap + additional := by
    apply if_pos
    unfold usizeMax
    omega
  have hm1 : max esz 1 = esz := by omega
  have hME : min (isizeMax / max esz 1) MAX_CAPACITY = MAX_CAPACITY := by
    rw [hm1]
    apply min_eq_right
    rw [Nat.le_div_iff_mul_le h1]
    calc MAX_CAPACITY * esz ≤ MAX_CAPACITY * 128 := Nat.mul_le_mul_left _ h2
      _ ≤ isizeMax := by decide
  simp only [hesz, if_false, hreq, hME]
  have hcapped : min (rv.cap + additional) MAX_CAPACITY = rv.cap + additional :=
    min_eq_left h3
  rw [hcapped]
  split_ifs with hle h0
  · refine ⟨by omega, by omega, fun j hj => rfl⟩
  · have hm : rv.cap + additional ≤ max (rv.cap + additional) MIN_NON_ZERO_CAP :=
      le_max_left _ _
    have hmle : max (rv.cap + additional) MIN_NON_ZERO_CAP ≤ 2 ^ 48 := by
      have : MIN_NON_ZERO_CAP = 8 := rfl
      omega
    rw [nextPow2U_eq _ (by omega)]
    have hge := nextPow2_ge (max (rv.cap + additional) MIN_NON_ZERO_CAP)
    have hub := nextPow2_le (max (rv.cap + additional) MIN_NON_ZERO_CAP)
      (by have : MIN_NON_ZERO_CAP = 8 := rfl; omega)
    have hsz : nextPow2 (max (rv.cap + additional) MIN_NON_ZERO_CAP) * esz ≤
        isizeMax := by
      have : nextPow2 (max (rv.cap + additional) MIN_NON_ZERO_CAP) * esz ≤
          2 ^ 49 * 128 := Nat.mul_le_mul (by omega) h2
      unfold isizeMax
      omega
    obtain ⟨hc, _, hmem⟩ := grow_to_spec esz rv _ h1 hsz
    rw [hc]
    refine ⟨by omega, by omega, fun j hj => hmem j (by omega)⟩
  · have hge := calculate_growth_ge esz rv.cap (rv.cap + additional) h1 h2
      (by omega) h3
    have hub := calculate_growth_le esz rv.cap (rv.cap + additional)
    have hsz : calculate_growth esz rv.cap (rv.cap + additional) * esz ≤
        isizeMax := by
      have : calculate_growth esz rv.cap (rv.cap + additional) * esz ≤
          2 ^ 48 * 128 := Nat.mul_le_mul (by omega) h2
      unfold isizeMax
      omega
    obtain ⟨hc, _, hmem⟩ := grow_to_spec esz rv _ h1 hsz
    rw [hc]
    refine ⟨by omega, by omega, fun j hj => hmem j (by omega)⟩

theorem shift_right_no_grow (esz : Nat) (rv : RawVec α) (index count places : Nat)
    (h : index + places + count ≤ rv.cap) (hcap : rv.cap ≤ usizeMax) :
    rv.shift_right esz index count places = some
      { rv with mem := (fun j =>
        if index + places ≤ j ∧ j < index + places + count
        then rv.mem (j - places) else rv.mem j) } := by
  unfold RawVec.shift_right
  have h1 : ¬ usizeMax < index + places + count := by omega
  have h2 : ¬ rv.cap < index + places + count := by omega
  simp only [h1, if_false, h2]

theorem shift_left_zero (rv : RawVec α) (index places : Nat) :
    rv.shift_left index 0 places = some rv := rfl

theorem shift_left_spec (rv : RawVec α) (index count places : Nat)
    (h0 : count ≠ 0) (h : places ≤ index) :
    rv.shift_left index count places = some
      { rv with mem := (fun j =>
        if index - places ≤ j ∧ j < index - places + count
        then rv.mem (j + places) else rv.mem j) } := by
  unfold RawVec.shift_left
  have h1 : ¬ index < places := by omega
  simp only [h0, if_false, h1]

/-! Helper lemmas about the zero-sized-element code paths. -/

theorem reserve_zst (rv : RawVec α) (a : Nat) :
    rv.reserve 0 a = { rv with cap := usizeMax } := by
  unfold RawVec.reserve
  simp

theorem shrink_to_fit_zst (rv : RawVec α) (len : Nat) :
    rv.shrink_to_fit 0 len = { rv with cap := usizeMax } := by
  unfold RawVec.shrink_to_fit
  simp

theorem shift_left_keeps (rv : RawVec α) (i c p : Nat) (r : RawVec α)
    (h : rv.shift_left i c p = some r) :
    r.cap = rv.cap ∧ r.allocs = rv.allocs := by
  unfold RawVec.shift_left at h
  split at h
  · cases h
    exact ⟨rfl, rfl⟩
  · split at h
    · cases h
    · cases h
      exact ⟨rfl, rfl⟩

theorem shift_right_zst (rv : RawVec α) (i c p : Nat) (r : RawVec α)
    (h : rv.shift_right 0 i c p = some r) :
    r.allocs = rv.allocs ∧ (r.cap = rv.cap ∨ r.cap = usizeMax) := by
  simp only [RawVec.shift_right] at h
  split at h
  · cases h
  · split at h
    · rw [reserve_zst] at h
      cases h
      exact ⟨rfl, Or.inr rfl⟩
    · cases h
      exact ⟨rfl, Or.inl rfl⟩

theorem pop_buf (v : Vec α) : ((v.pop).1).buf = v.buf := by
  unfold Vec.pop
  split <;> rfl

theorem popN_buf (k : Nat) : ∀ v : Vec α, ((v.popN k)).buf = v.buf := by
  induction k with
  | zero => intro v; rfl
  | succ n ih =>
    intro v
    show ((v.pop).1.popN n).buf = v.buf
    rw [ih, pop_buf]

theorem write_at_keeps (rv : RawVec α) (i : Nat) (x : α) :
    (rv.write_at i x).cap = rv.cap ∧ (rv.write_at i x).allocs = rv.allocs :=
  ⟨rfl, rfl⟩

theorem reserve_vec_zst (v : Vec α) (n : Nat) (hv : zstInv v) :
    zstInv (v.reserve 0 n) := by
  refine ⟨?_, Or.inr ?_⟩
  · show (v.buf.reserve 0 n).allocs = 0
    rw [reserve_zst]
    exact hv.1
  · show (v.buf.reserve 0 n).cap = usizeMax
    rw [reserve_zst]

theorem push_zst (v : Vec α) (x : α) (v2 : Vec α) (hv : zstInv v)
    (h : v.push 0 x = some v2) : zstInv v2 := by
  simp only [Vec.push] at h
  split at h
  · split at h
    · cases h
      exact ⟨(reserve_vec_zst v (max 1 (v.buf.cap / 2)) hv).1,
        (reserve_vec_zst v (max 1 (v.buf.cap / 2)) hv).2⟩
    · cases h
  · split at h
    · cases h
      exact ⟨hv.1, hv.2⟩
    · cases h

theorem pushList_zst (xs : List α) : ∀ (v v2 : Vec α), zstInv v →
    v.pushList 0 xs = some v2 → zstInv v2 := by
  induction xs with
  | nil =>
    intro v v2 hv h
    cases h
    exact hv
  | cons x rest ih =>
    intro v v2 hv h
    unfold Vec.pushList at h
    split at h
    · cases h
    · rename_i w hw
      exact ih _ _ (push_zst v x w hv hw) h

theorem insert_zst (v : Vec α) (i : Nat) (x : α) (v2 : Vec α) (hv : zstInv v)
    (h : v.insert 0 i x = some v2) : zstInv v2 := by
  simp only [Vec.insert] at h
  by_cases hfull : v.len = v.buf.cap
  · simp only [if_pos hfull] at h
    split at h
    · cases h
    · split at h
      · cases h
      · rename_i buf hbuf
        split at h
        · cases h
          have hz := shift_right_zst _ _ _ _ _ hbuf
          have hres := reserve_vec_zst v (max 1 (v.buf.cap / 2)) hv
          refine ⟨?_, ?_⟩
          · show (buf.write_at i x).allocs = 0
            rw [(write_at_keeps buf i x).2, hz.1]
            exact hres.1
          · show (buf.write_at i x).cap = 0 ∨ (buf.write_at i x).cap = usizeMax
            rw [(write_at_keeps buf i x).1]
            rcases hz.2 with hc | hc
            · rw [hc]
              exact hres.2
            · rw [hc]
              exact Or.inr rfl
        · cases h
  · simp only [if_neg hfull] at h
    split at h
    · cases h
    · split at h
      · cases h
      · rename_i buf hbuf
        split at h
        · cases h
          have hz := shift_right_zst _ _ _ _ _ hbuf
          refine ⟨?_, ?_⟩
          · show (buf.write_at i x).allocs = 0
            rw [(write_at_keeps buf i x).2, hz.1]
            exact hv.1
          · show (buf.write_at i x).cap = 0 ∨ (buf.write_at i x).cap = usizeMax
            rw [(write_at_keeps buf i x).1]
            rcases hz.2 with hc | hc
            · rw [hc]
              exact hv.2
            · rw [hc]
              exact Or.inr rfl
        · cases h

theorem remove_zst (v : Vec α) (i : Nat) (r : Option α) (v2 : Vec α)
    (hv : zstInv v) (h : v.remove i = some (r, v2)) : zstInv v2 := by
  unfold Vec.remove at h
  split at h
  · cases h
  · split at h
    · cases h
    · rename_i buf hbuf
      cases h
      have hz := shift_left_keeps v.buf _ _ _ buf hbuf
      exact ⟨hz.2 ▸ hv.1, hz.1 ▸ hv.2⟩

theorem shrink_vec_zst (v : Vec α) (hv : zstInv v) :
    zstInv (v.shrink_to_fit 0) := by
  refine ⟨?_, Or.inr ?_⟩
  · show (v.buf.shrink_to_fit 0 v.len).allocs = 0
    rw [shrink_to_fit_zst]
    exact hv.1
  · show (v.buf.shrink_to_fit 0 v.len).cap = usizeMax
    rw [shrink_to_fit_zst]

theorem truncate_zst (v : Vec α) (n : Nat) (hv : zstInv v) :
    zstInv (v.truncate 0 n) := by
  have hb : ((v.popN (v.len - n))).buf = v.buf := popN_buf _ v
  have hpop : zstInv (v.popN (v.len - n)) :=
    ⟨by rw [hb]; exact hv.1, by rw [hb]; exact hv.2⟩
  simp only [Vec.truncate]
  split
  · exact shrink_vec_zst _ hpop
  · exact hpop

theorem next_buf (d : Drain α) : ((d.next).1).buf = d.buf := by
  unfold Drain.next
  split <;> rfl

theorem next_back_buf (d : Drain α) : ((d.next_back).1).buf = d.buf := by
  unfold Drain.next_back
  split <;> rfl

theorem steps_buf (ms : List Bool) : ∀ d : Drain α,
    ((d.steps ms).1).buf = d.buf := by
  induction ms with
  | nil => intro d; rfl
  | cons s rest ih =>
    intro d
    show ((if s then d.next else d.next_back).1.steps rest).1.buf = d.buf
    rw [ih]
    split
    · exact next_buf d
    · exact next_back_buf d

theorem drain_run_zst (v : Vec α) (a b : Nat) (ms : List Bool)
    (v2 : Vec α) (ys : List (Option α)) (hv : zstInv v)
    (h : v.drain_run a b ms = some (v2, ys)) : zstInv v2 := by
  simp only [Vec.drain_run] at h
  split at h
  · split at h
    · rename_i buf hbuf
      cases h
      have hsb : ((Drain.steps ⟨v.buf, a, b, v.len, a⟩ ms)).1.buf = v.buf :=
        steps_buf ms _
      simp only [Drain.drop] at hbuf
      split at hbuf
      · have hz := shift_left_keeps _ _ _ _ _ hbuf
        rw [hsb] at hz
        exact ⟨by rw [hz.2]; exact hv.1, by rw [hz.1]; exact hv.2⟩
      · cases hbuf
        exact ⟨by rw [hsb]; exact hv.1, by rw [hsb]; exact hv.2⟩
    · cases h
  · cases h

theorem execOp_zst (v : Vec α) (op : Op α) (v2 : Vec α) (hv : zstInv v)
    (h : execOp 0 v op = some v2) : zstInv v2 := by
  cases op with
  | push x => exact push_zst v x v2 hv h
  | pop =>
    cases h
    exact ⟨(pop_buf v) ▸ hv.1, (pop_buf v) ▸ hv.2⟩
  | insert i x => exact insert_zst v i x v2 hv h
  | remove i =>
    simp only [execOp] at h
    cases hr : v.remove i with
    | none => rw [hr] at h; cases h
    | some p =>
      rw [hr] at h
      cases h
      exact remove_zst v i p.1 p.2 hv hr
  | truncate n =>
    cases h
    exact truncate_zst v n hv
  | clear =>
    cases h
    exact ⟨(popN_buf _ v) ▸ hv.1, (popN_buf _ v) ▸ hv.2⟩
  | shrink =>
    cases h
    exact shrink_vec_zst v hv
  | reserveOp n =>
    cases h
    refine ⟨?_, Or.inr ?_⟩
    · show (v.buf.reserve 0 n).allocs = 0
      rw [reserve_zst]
      exact hv.1
    · show (v.buf.reserve 0 n).cap = usizeMax
      rw [reserve_zst]
  | extendOp xs =>
    simp only [execOp, Vec.extend] at h
    exact pushList_zst xs _ v2 (reserve_vec_zst v xs.length hv) h
  | drainOp a b ms =>
    simp only [execOp] at h
    cases hr : v.drain_run a b ms with
    | none => rw [hr] at h; cases h
    | some p =>
      rw [hr] at h
      cases h
      exact drain_run_zst v a b ms p.1 p.2 hv hr

theorem execOps_zst (ops : List (Op α)) : ∀ (v v2 : Vec α), zstInv v →
    execOps 0 v ops = some v2 → zstInv v2 := by
  induction ops with
  | nil =>
    intro v v2 hv h
    cases h
    exact hv
  | cons op rest ih =>
    intro v v2 hv h
    unfold execOps at h
    split at h
    · cases h
    · rename_i w hw
      exact ih _ _ (execOp_zst v op w hv hw) h

/-! Further helper lemmas for the non-zero-sized element paths. -/

theorem reserve_len (esz : Nat) (v : Vec α) (a : Nat) :
    (v.reserve esz a).len = v.len := rfl

theorem reserve_buf (esz : Nat) (v : Vec α) (a : Nat) :
    (v.reserve esz a).buf = v.buf.reserve esz a := rfl

theorem reserve_noop (esz : Nat) (rv : RawVec α) (additional : Nat)
    (h1 : esz ≠ 0)
    (hcond : min (if rv.cap + additional ≤ usizeMax then rv.cap + additional
      else MAX_CAPACITY) (min (isizeMax / max esz 1) MAX_CAPACITY) ≤ rv.cap) :
    rv.reserve esz additional = rv := by
  simp only [RawVec.reserve, if_neg h1]
  rw [if_pos hcond]

theorem reserve_cap_growth (esz : Nat) (rv : RawVec α) (a : Nat)
    (h1 : 0 < esz) (h2 : esz ≤ 128) (h3 : rv.cap + a ≤ MAX_CAPACITY)
    (h0 : 0 < rv.cap) (ha : 0 < a) :
    (rv.reserve esz a).cap = calculate_growth esz rv.cap (rv.cap + a) := by
  unfold RawVec.reserve
  have hesz : ¬ esz = 0 := by omega
  have hreq : (if rv.cap + a ≤ usizeMax then rv.cap + a else MAX_CAPACITY) =
      rv.cap + a := by
    apply if_pos
    unfold usizeMax
    have hM : MAX_CAPACITY = 2 ^ 48 := rfl
    omega
  have hm1 : max esz 1 = esz := by omega
  have hME : min (isizeMax / max esz 1) MAX_CAPACITY = MAX_CAPACITY := by
    rw [hm1]
    apply min_eq_right
    rw [Nat.le_div_iff_mul_le h1]
    calc MAX_CAPACITY * esz ≤ MAX_CAPACITY * 128 := Nat.mul_le_mul_left _ h2
      _ ≤ isizeMax := by decide
  simp only [hesz, if_false, hreq, hME]
  rw [min_eq_left h3]
  have hnle : ¬ rv.cap + a ≤ rv.cap := by omega
  have hn0 : ¬ rv.cap = 0 := by omega
  rw [if_neg hnle, if_neg hn0]
  have hub := calculate_growth_le esz rv.cap (rv.cap + a)
  have hsz : calculate_growth esz rv.cap (rv.cap + a) * esz ≤ isizeMax := by
    have : calculate_growth esz rv.cap (rv.cap + a) * esz ≤ 2 ^ 48 * 128 := by
      apply Nat.mul_le_mul _ h2
      have hM : MAX_CAPACITY = 2 ^ 48 := rfl
      omega
    unfold isizeMax
    omega
  exact (grow_to_spec esz rv _ h1 hsz).1

theorem with_capacity_some (esz n : Nat) (h1 : esz ≠ 0)
    (h : (if n = 0 then MIN_NON_ZERO_CAP else n) * esz ≤ isizeMax) :
    (RawVec.with_capacity (α := α) esz n) =
      some ⟨fun _ => none, if n = 0 then MIN_NON_ZERO_CAP else n, 1⟩ := by
  simp only [RawVec.with_capacity, if_neg h1]
  rw [if_pos h]

theorem clone_eq (esz : Nat) (rv : RawVec α) (h1 : esz ≠ 0)
    (h : (if rv.cap = 0 then MIN_NON_ZERO_CAP else rv.cap) * esz ≤ isizeMax) :
    rv.clone esz = some ⟨fun j => if j < rv.cap then rv.mem j else none,
      if rv.cap = 0 then MIN_NON_ZERO_CAP else rv.cap, 1⟩ := by
  simp only [RawVec.clone, with_capacity_some esz rv.cap h1 h, Option.map_some']

theorem should_shrink_of_low (esz cap len : Nat) (h1 : esz ≠ 0)
    (h : 4 * len < cap) : should_shrink esz cap len = true := by
  unfold should_shrink
  rw [if_neg h1, if_pos (Or.inr h)]

theorem shrink_to_fit_spec (esz : Nat) (rv : RawVec α) (len : Nat)
    (h1 : 0 < esz) (hlen : len ≤ rv.cap) (hcap : rv.cap ≤ isizeMax) :
    (rv.shrink_to_fit esz len).cap ≤ rv.cap ∧
      len ≤ (rv.shrink_to_fit esz len).cap ∧
      (4 * len < rv.cap → max (nextPow2U len) MIN_NON_ZERO_CAP < rv.cap →
        (rv.shrink_to_fit esz len).cap = max (nextPow2U len) MIN_NON_ZERO_CAP) := by
  have hesz : ¬ esz = 0 := by omega
  have hlen63 : len ≤ 2 ^ 63 := by
    unfold isizeMax at hcap
    omega
  have hnp : len ≤ nextPow2U len := by
    rw [nextPow2U_eq _ hlen63]
    exact nextPow2_ge len
  simp only [RawVec.shrink_to_fit, if_neg hesz]
  split
  · rename_i hguard
    refine ⟨le_refl _, hlen, ?_⟩
    intro h4 _
    omega
  · rename_i hguard
    split
    · split
      · rename_i hless
        refine ⟨le_of_lt hless, le_trans hnp (le_max_left _ _), ?_⟩
        intro _ _
        rfl
      · rename_i hnless
        refine ⟨le_refl _, hlen, ?_⟩
        intro _ hmax
        exact absurd hmax hnless
    · rename_i hss
      refine ⟨le_refl _, hlen, ?_⟩
      intro h4 _
      rw [should_shrink_of_low esz rv.cap len hesz h4] at hss
      simp at hss

theorem push_full_eq (esz : Nat) (v : Vec α) (x : α) (hfull : v.len = v.buf.cap)
    (hle : v.len + 1 ≤ usizeMax) :
    v.push esz x = some ⟨(v.buf.reserve esz (max 1 (v.buf.cap / 2))).write_at
      v.len x, v.len + 1⟩ := by
  simp only [Vec.push, if_pos hfull, reserve_len, reserve_buf]
  rw [if_pos hle]

theorem insert_eq (esz : Nat) (v : Vec α) (i : Nat) (x : α) (B Bsh : RawVec α)
    (hguard : ¬ v.len < i)
    (hBdef : (if v.len = v.buf.cap then v.reserve esz (max 1 (v.buf.cap / 2))
      else v) = ⟨B, v.len⟩)
    (hsr : B.shift_right esz i (v.len - i) 1 = some Bsh)
    (hle : v.len + 1 ≤ usizeMax) :
    v.insert esz i x = some ⟨Bsh.write_at i x, v.len + 1⟩ := by
  simp only [Vec.insert, if_neg hguard, hBdef, hsr]
  rw [if_pos hle]

theorem remove_eq (v : Vec α) (i : Nat) (hi : i < v.len) (Bsh : RawVec α)
    (hsl : v.buf.shift_left (i + 1) (v.len - (i + 1)) 1 = some Bsh) :
    v.remove i = some (v.buf.mem i, ⟨Bsh, v.len - 1⟩) := by
  have hguard : ¬ v.len ≤ i := by omega
  simp only [Vec.remove, if_neg hguard, hsl, RawVec.read_at]

/-! Claim theorems. -/

/-- C1: evaluation of the drain machinery at a concrete input showing the code
violates the claim for backward steps. For the container [0,1,2,3,4],
drain(1..4) followed by one next_back (which yields e3 = 3) and the drop leaves
the container as [0, 3]: the drop shifts from the narrowed end, moving the
stale copy of the already-yielded 3 into the live region instead of the tail
element 4, so the final container differs from the [e0, e4] = [0, 4] the claim
requires. Forward-only consumption of the same drain is compacted correctly. -/
theorem C1_drain_partial_back_eval :
    ((mkVec [0, 1, 2, 3, 4]).drain_run 1 4 [false]).map
        (fun p => (p.1.toListO, p.2)) = some ([some 0, some 3], [some 3]) ∧
      ([some 0, some 3] : List (Option Nat)) ≠ [some 0, some 4] ∧
      ((mkVec [0, 1, 2, 3, 4]).drain_run 1 4 [true, true, true]).map
        (fun p => (p.1.toListO, p.2)) =
        some ([some 0, some 4], [some 1, some 2, some 3]) :=
  ⟨by decide, by decide, by decide⟩

/-- C2: evaluation of the code at the failing input. For an element type of
size 256 bytes, with_capacity(1) followed by two pushes leaves the container
with length 2 but capacity 1: the second push calls reserve(1), whose growth
computation min(cap + cap/2, required) = min(1, 2) = 1 fails to grow the
buffer, after which push writes out of bounds and increments the length past
the capacity (in debug builds the grow_to assertion new_cap > cap fires
instead). This violates the claimed invariant length ≤ capacity. -/
theorem C2_len_le_cap_eval :
    ((Vec.with_capacity (α := Nat) 256 1).bind
        (fun v => execOps 256 v [Op.push 7, Op.push 8])).map
        (fun v => (v.len, v.buf.cap)) = some (2, 1) ∧ ¬ (2 : Nat) ≤ 1 :=
  ⟨by decide, by decide⟩

/-- C3 counterexample: reserve is not a no-op even when the capacity is already
at least length + additional. A fresh with_capacity(8) container (capacity 8,
length 0) satisfies capacity ≥ length + 4, yet reserve(4) grows the capacity
to 16, because RawVec::reserve computes its requirement from the current
capacity rather than from the length. -/
theorem C3_reserve_noop_counterexample :
    ((Vec.with_capacity (α := Nat) 1 8).map
        (fun v => (v.len, v.buf.cap, (v.reserve 1 4).buf.cap))) =
      some (0, 8, 16) ∧ (0 : Nat) + 4 ≤ 8 ∧ (16 : Nat) ≠ 8 :=
  ⟨by decide, by decide, by decide⟩

/-- C3 amended: for element sizes of at most 128 bytes and requests below the
platform maximum, reserve(additional) ensures capacity ≥ old capacity +
additional (hence ≥ length + additional), and it is a no-op when additional =
0; it is not a no-op merely because capacity ≥ length + additional, and for
element sizes above 128 bytes the 1.5x/1.25x growth caps can leave the
capacity short of the request. -/
theorem C3_reserve_amended (esz additional : Nat) (v : Vec α)
    (h1 : 0 < esz) (h2 : esz ≤ 128) (h3 : v.buf.cap + additional ≤ MAX_CAPACITY)
    (hlen : v.len ≤ v.buf.cap) :
    v.len + additional ≤ (v.reserve esz additional).buf.cap ∧
      (additional = 0 → v.reserve esz additional = v) := by
  constructor
  · have hr := (reserve_spec esz v.buf additional h1 h2 h3).1
    rw [reserve_buf]
    omega
  · intro ha
    subst ha
    have hle : v.buf.cap + 0 ≤ usizeMax := by
      have hM : MAX_CAPACITY = 2 ^ 48 := rfl
      unfold usizeMax
      omega
    have hc : min (if v.buf.cap + 0 ≤ usizeMax then v.buf.cap + 0
        else MAX_CAPACITY) (min (isizeMax / max esz 1) MAX_CAPACITY) ≤
        v.buf.cap := by
      rw [if_pos hle]
      exact le_trans (min_le_left _ _) (by omega)
    have hb := reserve_noop esz v.buf 0 (by omega) hc
    show ({ v with buf := v.buf.reserve esz 0 } : Vec α) = v
    rw [hb]

/-- C3 witness: the amended reserve guarantee evaluated on a concrete
container of length 2 and capacity 2 with additional = 5. -/
theorem C3_reserve_amended_witness :
    (mkVec [1, 2] : Vec Nat).buf.cap + 5 ≤ MAX_CAPACITY ∧
      (mkVec [1, 2] : Vec Nat).len + 5 ≤
        ((mkVec [1, 2] : Vec Nat).reserve 4 5).buf.cap :=
  ⟨by decide, (C3_reserve_amended 4 5 (mkVec [1, 2]) (by decide) (by decide)
    (by decide) (by decide)).1⟩

/-- C4 counterexample: a growth step can exceed 2.0 times the old capacity.
A full container of capacity 15 (element size 1) grows on push to capacity
32 > 2 * 15: the doubled capacity 30 is rounded up to the power of two 32,
which is within the 12.5 percent rounding allowance but above the claimed
2.0x bound. -/
theorem C4_growth_ratio_counterexample :
    ((mkVec (List.replicate 15 (0 : Nat))).push 1 5).map (fun v => v.buf.cap) =
        some 32 ∧
      (mkVec (List.replicate 15 (0 : Nat))).buf.cap = 15 ∧
      ¬ (32 : Nat) ≤ 2 * 15 :=
  ⟨by decide, by decide, by decide⟩

/-- C4 amended: for element sizes of at most 128 bytes, every push-triggered
growth step from a non-zero old capacity (below a quarter of the platform
maximum) yields a new capacity between 1.2 and 2.25 times the old capacity,
stated exactly as 6 * old ≤ 5 * new and 4 * new ≤ 9 * old (the power-of-two
rounding can add up to 12.5 percent on top of the doubling). -/
theorem C4_growth_ratio_amended (esz : Nat) (v : Vec α) (x : α)
    (h1 : 0 < esz) (h2 : esz ≤ 128) (hfull : v.len = v.buf.cap)
    (h0 : 0 < v.buf.cap) (hc : v.buf.cap ≤ 2 ^ 46) :
    ∃ v2, v.push esz x = some v2 ∧
      6 * v.buf.cap ≤ 5 * v2.buf.cap ∧ 4 * v2.buf.cap ≤ 9 * v.buf.cap := by
  have hle : v.len + 1 ≤ usizeMax := by
    unfold usizeMax
    omega
  have hpe := push_full_eq esz v x hfull hle
  have hadd : 0 < max 1 (v.buf.cap / 2) := by omega
  have h3 : v.buf.cap + max 1 (v.buf.cap / 2) ≤ MAX_CAPACITY := by
    have hM : MAX_CAPACITY = 2 ^ 48 := rfl
    omega
  have hrc := reserve_cap_growth esz v.buf (max 1 (v.buf.cap / 2)) h1 h2 h3 h0
    hadd
  have hbnd := calculate_growth_push_bounds esz v.buf.cap
    (v.buf.cap + max 1 (v.buf.cap / 2)) h1 h2 hc h0 (by omega)
  refine ⟨_, hpe, ?_, ?_⟩
  · show 6 * v.buf.cap ≤
      5 * ((v.buf.reserve esz (max 1 (v.buf.cap / 2))).write_at v.len x).cap
    have hwc : ((v.buf.reserve esz (max 1 (v.buf.cap / 2))).write_at
        v.len x).cap = (v.buf.reserve esz (max 1 (v.buf.cap / 2))).cap := rfl
    rw [hwc, hrc]
    omega
  · show 4 * ((v.buf.reserve esz (max 1 (v.buf.cap / 2))).write_at
        v.len x).cap ≤ 9 * v.buf.cap
    have hwc : ((v.buf.reserve esz (max 1 (v.buf.cap / 2))).write_at
        v.len x).cap = (v.buf.reserve esz (max 1 (v.buf.cap / 2))).cap := rfl
    rw [hwc, hrc]
    omega

/-- C4 witness: the amended growth bound evaluated on the full container of
capacity 15 with element size 1 (6 * 15 = 90 ≤ 5 * 32 = 160 and 4 * 32 = 128 ≤
9 * 15 = 135). -/
theorem C4_growth_ratio_amended_witness :
    0 < (mkVec (List.replicate 15 (0 : Nat))).buf.cap ∧
      ∃ v2, (mkVec (List.replicate 15 (0 : Nat))).push 1 5 = some v2 ∧
        6 * (mkVec (List.replicate 15 (0 : Nat))).buf.cap ≤ 5 * v2.buf.cap ∧
        4 * v2.buf.cap ≤ 9 * (mkVec (List.replicate 15 (0 : Nat))).buf.cap :=
  ⟨by decide, C4_growth_ratio_amended 1 (mkVec (List.replicate 15 (0 : Nat))) 5
    (by decide) (by decide) (by decide) (by decide) (by decide)⟩

/-- C5 counterexample: shrink_to_fit does not strictly decrease the capacity
for every container with usage below 25 percent. A container with length 1 and
capacity 8 (with_capacity(8) plus one push) has usage 12.5 percent, yet
shrink_to_fit leaves the capacity at 8, because the shrink target
max(next_power_of_two(len), MIN_NON_ZERO_CAP) = 8 is not strictly smaller than
the current capacity. -/
theorem C5_shrink_counterexample :
    ((Vec.with_capacity (α := Nat) 1 8).bind (fun v => v.push 1 42)).map
        (fun v => (v.len, v.buf.cap, (v.shrink_to_fit 1).buf.cap)) =
      some (1, 8, 8) ∧ 4 * 1 < 8 ∧ ¬ (8 : Nat) < 8 :=
  ⟨by decide, by decide, by decide⟩

/-- C5 amended: for non-zero-sized element types (with length ≤ capacity and a
buffer that fits the address space), shrink_to_fit never increases the
capacity, never makes the capacity smaller than the length, and strictly
decreases the capacity whenever usage is below 25 percent AND the shrink
target max(next_power_of_two(len), MIN_NON_ZERO_CAP) is strictly below the
current capacity. -/
theorem C5_shrink_amended (esz : Nat) (v : Vec α) (h1 : 0 < esz)
    (hlen : v.len ≤ v.buf.cap) (hcap : v.buf.cap ≤ isizeMax) :
    (v.shrink_to_fit esz).buf.cap ≤ v.buf.cap ∧
      v.len ≤ (v.shrink_to_fit esz).buf.cap ∧
      (4 * v.len < v.buf.cap →
        max (nextPow2U v.len) MIN_NON_ZERO_CAP < v.buf.cap →
        (v.shrink_to_fit esz).buf.cap < v.buf.cap) := by
  obtain ⟨ha, hb, hc⟩ := shrink_to_fit_spec esz v.buf v.len h1 hlen hcap
  refine ⟨ha, hb, ?_⟩
  intro h4 hm
  show (v.buf.shrink_to_fit esz v.len).cap < v.buf.cap
  rw [hc h4 hm]
  exact hm

/-- C5 witness: the amended shrink law evaluated on a container of length 20
and capacity 100: shrink_to_fit strictly reduces the capacity. -/
theorem C5_shrink_amended_witness :
    (bufVec (List.replicate 100 (0 : Nat)) 20).len ≤
        (bufVec (List.replicate 100 (0 : Nat)) 20).buf.cap ∧
      ((bufVec (List.replicate 100 (0 : Nat)) 20).shrink_to_fit 4).buf.cap <
        (bufVec (List.replicate 100 (0 : Nat)) 20).buf.cap :=
  ⟨by decide, (C5_shrink_amended 4 (bufVec (List.replicate 100 (0 : Nat)) 20)
    (by decide) (by decide) (by decide)).2.2 (by decide) (by decide)⟩

/-- C6 counterexample: for a zero-sized element type, a freshly constructed
new() container reports capacity 0, not the unbounded sentinel usize::MAX
(RawVec::new stores cap 0 even when T is zero-sized, and the repository's own
test asserts this). -/
theorem C6_zst_new_counterexample :
    (Vec.new : Vec Nat).buf.cap = 0 ∧ (0 : Nat) ≠ usizeMax :=
  ⟨rfl, by decide⟩

/-- C6 amended: for a zero-sized element type, new() reports capacity 0 and
with_capacity reports the usize::MAX sentinel; every container state reachable
from new() by the public operations has capacity 0 or usize::MAX, and no
reachable state has ever called the allocator. -/
theorem C6_zst_amended (ops : List (Op α)) (v2 : Vec α)
    (h : execOps 0 (Vec.new : Vec α) ops = some v2) :
    (v2.buf.allocs = 0 ∧ (v2.buf.cap = 0 ∨ v2.buf.cap = usizeMax)) ∧
      (Vec.new : Vec α).buf.cap = 0 ∧ (Vec.new : Vec α).buf.allocs = 0 ∧
      ∀ n, ∀ w : Vec α, Vec.with_capacity 0 n = some w →
        w.buf.cap = usizeMax ∧ w.buf.allocs = 0 := by
  refine ⟨execOps_zst ops _ v2 ⟨rfl, Or.inl rfl⟩ h, rfl, rfl, ?_⟩
  intro n w hw
  cases hw
  exact ⟨rfl, rfl⟩

/-- C6 witness: the amended zero-sized-element law evaluated after a single
reserve(3) call from new(). -/
theorem C6_zst_amended_witness :
    (⟨⟨fun _ => none, usizeMax, 0⟩, 0⟩ : Vec Nat).buf.allocs = 0 ∧
      ((⟨⟨fun _ => none, usizeMax, 0⟩, 0⟩ : Vec Nat).buf.cap = 0 ∨
        (⟨⟨fun _ => none, usizeMax, 0⟩, 0⟩ : Vec Nat).buf.cap = usizeMax) :=
  (C6_zst_amended [Op.reserveOp 3] _ rfl).1

/-- C7 counterexample: clone reads unoccupied slots. Two containers with equal
length 1, equal capacity 2, and equal contents on the single occupied slot
(index 0) - differing only in the stale unoccupied cell at index 1 - produce
clones that differ at index 1, so Clone for RawVec copies (and hence reads)
cells in [length, capacity), contradicting the claim that only [0, length) is
read. -/
theorem C7_clone_reads_counterexample :
    (bufVec [5, 6] 1 : Vec Nat).len = (bufVec [5, 7] 1 : Vec Nat).len ∧
      (bufVec [5, 6] 1 : Vec Nat).buf.cap = (bufVec [5, 7] 1 : Vec Nat).buf.cap ∧
      (bufVec [5, 6] 1 : Vec Nat).buf.mem 0 = (bufVec [5, 7] 1 : Vec Nat).buf.mem 0 ∧
      ((bufVec [5, 6] 1 : Vec Nat).clone 4).map (fun c => c.buf.mem 1) ≠
        ((bufVec [5, 7] 1 : Vec Nat).clone 4).map (fun c => c.buf.mem 1) :=
  ⟨rfl, rfl, by decide, by decide⟩

/-- C7 amended: clone produces an independent container with equal length,
elements equal to the original's on the occupied slots [0, length), and
capacity at least the length; however it copies all capacity slots, so it also
reads the unoccupied cells in [length, capacity). -/
theorem C7_clone_amended (esz : Nat) (v : Vec α) (h1 : 0 < esz)
    (hlen : v.len ≤ v.buf.cap) (hcap : v.buf.cap * esz ≤ isizeMax)
    (h8 : MIN_NON_ZERO_CAP * esz ≤ isizeMax) :
    ∃ c, v.clone esz = some c ∧ c.len = v.len ∧
      (∀ i, i < v.len → c.buf.mem i = v.buf.mem i) ∧ v.len ≤ c.buf.cap := by
  have hcnd : (if v.buf.cap = 0 then MIN_NON_ZERO_CAP else v.buf.cap) * esz ≤
      isizeMax := by
    split
    · exact h8
    · exact hcap
  have hce := clone_eq esz v.buf (by omega) hcnd
  refine ⟨⟨⟨fun j => if j < v.buf.cap then v.buf.mem j else none,
      if v.buf.cap = 0 then MIN_NON_ZERO_CAP else v.buf.cap, 1⟩, v.len⟩,
      ?_, rfl, ?_, ?_⟩
  · simp only [Vec.clone, hce, Option.map_some']
  · intro i hi
    show (if i < v.buf.cap then v.buf.mem i else none) = v.buf.mem i
    rw [if_pos (by omega)]
  · show v.len ≤ if v.buf.cap = 0 then MIN_NON_ZERO_CAP else v.buf.cap
    split
    · rename_i h0
      have hm : MIN_NON_ZERO_CAP = 8 := rfl
      omega
    · exact hlen

/-- C7 witness: the amended clone law evaluated on the container [1, 2] with
element size 4. -/
theorem C7_clone_amended_witness :
    (mkVec [1, 2] : Vec Nat).len ≤ (mkVec [1, 2] : Vec Nat).buf.cap ∧
      ∃ c, (mkVec [1, 2] : Vec Nat).clone 4 = some c ∧
        c.len = (mkVec [1, 2] : Vec Nat).len ∧
        (∀ i, i < (mkVec [1, 2] : Vec Nat).len →
          c.buf.mem i = (mkVec [1, 2] : Vec Nat).buf.mem i) ∧
        (mkVec [1, 2] : Vec Nat).len ≤ c.buf.cap :=
  ⟨by decide, C7_clone_amended 4 (mkVec [1, 2]) (by decide) (by decide)
    (by decide) (by decide)⟩

/-- C8 counterexample: the unqualified round-trip claim fails for element
sizes above 128 bytes. For a 256-byte element type, the reachable container
[7] with capacity 1 (with_capacity(1) plus one push) and the valid insertion
index 0 ≤ length: insert(0, 99) hits the same growth defect as C2 - reserve's
medium-tier growth min(1 + 1/2, 2) = 1 does not grow the buffer - so the
shift and the write land in cell 1, outside the 1-cell allocation, leaving
length 2 > capacity 1. In release builds the insert therefore corrupts the
heap (undefined behavior, and the subsequent remove reads the out-of-bounds
cell) and in debug builds the assertions abort, so insert followed by remove
does not return normally with the claimed result at this input. -/
theorem C8_insert_remove_counterexample :
    ((((Vec.with_capacity (α := Nat) 256 1).bind
        (fun v => v.push 256 7)).bind
        (fun v => v.insert 256 0 99)).map
        (fun v1 => (v1.len, v1.buf.cap))) = some (2, 1) ∧
      ¬ (2 : Nat) ≤ 1 :=
  ⟨by decide, by decide⟩

/-- C8 amended: for every container with element size at most 128 bytes
(and length ≤ capacity ≤ 2^46, so that the growth step stays in bounds),
every index i ≤ length and every element x, insert(i, x) immediately followed
by remove(i) returns x, restores the previous length, and leaves every
element of [0, length) at its prior position; for element sizes above 128
bytes the insert of the round-trip can write out of bounds on a full
capacity-1 container (see the counterexample), so the claim does not hold
for every container. -/
theorem C8_insert_remove_roundtrip (esz : Nat) (v : Vec α) (i : Nat) (x : α)
    (h1 : 0 < esz) (h2 : esz ≤ 128) (hi : i ≤ v.len)
    (hlen : v.len ≤ v.buf.cap) (hcap : v.buf.cap ≤ 2 ^ 46) :
    ∃ v1, v.insert esz i x = some v1 ∧
      ∃ r v2, v1.remove i = some (r, v2) ∧ r = some x ∧ v2.len = v.len ∧
        ∀ j, j < v.len → v2.buf.mem j = v.buf.mem j := by
  obtain ⟨B, hBdef, hB1, hB2, hB3⟩ :
      ∃ B : RawVec α,
        (if v.len = v.buf.cap then v.reserve esz (max 1 (v.buf.cap / 2))
          else v) = ⟨B, v.len⟩ ∧
        v.len + 1 ≤ B.cap ∧ B.cap ≤ usizeMax ∧
        ∀ j, j < v.len → B.mem j = v.buf.mem j := by
    by_cases hfull : v.len = v.buf.cap
    · obtain ⟨hr1, hr2, hr3⟩ := reserve_spec esz v.buf (max 1 (v.buf.cap / 2))
        h1 h2 (by have hM : MAX_CAPACITY = 2 ^ 48 := rfl; omega)
      refine ⟨v.buf.reserve esz (max 1 (v.buf.cap / 2)), ?_, by omega, ?_, ?_⟩
      · rw [if_pos hfull]
        rfl
      · unfold usizeMax
        omega
      · intro j hj
        exact hr3 j (by omega)
    · refine ⟨v.buf, ?_, by omega, by unfold usizeMax; omega, fun j hj => rfl⟩
      rw [if_neg hfull]
  have hguard : ¬ v.len < i := by omega
  have hle : v.len + 1 ≤ usizeMax := by omega
  obtain ⟨Bsh, hsr, hsh1, hsh2⟩ :
      ∃ Bsh : RawVec α, B.shift_right esz i (v.len - i) 1 = some Bsh ∧
        (∀ j, j < i → Bsh.mem j = B.mem j) ∧
        (∀ j, i + 1 ≤ j → j < v.len + 1 → Bsh.mem j = B.mem (j - 1)) := by
    refine ⟨_, shift_right_no_grow esz B i (v.len - i) 1 (by omega) hB2,
      ?_, ?_⟩
    · intro j hj
      show (if i + 1 ≤ j ∧ j < i + 1 + (v.len - i) then B.mem (j - 1)
        else B.mem j) = B.mem j
      rw [if_neg (by omega)]
    · intro j hj1 hj2
      show (if i + 1 ≤ j ∧ j < i + 1 + (v.len - i) then B.mem (j - 1)
        else B.mem j) = B.mem (j - 1)
      rw [if_pos (by omega)]
  have hins := insert_eq esz v i x B Bsh hguard hBdef hsr hle
  have hBw0 : (Bsh.write_at i x).mem i = some x := by
    show (if i = i then some x else Bsh.mem i) = some x
    rw [if_pos rfl]
  have hBwne : ∀ j, j ≠ i → (Bsh.write_at i x).mem j = Bsh.mem j := by
    intro j hj
    show (if j = i then some x else Bsh.mem j) = Bsh.mem j
    rw [if_neg hj]
  refine ⟨⟨Bsh.write_at i x, v.len + 1⟩, hins, ?_⟩
  by_cases hcase : i = v.len
  · have hc0 : v.len + 1 - (i + 1) = 0 := by omega
    have hsl : (Bsh.write_at i x).shift_left (i + 1) (v.len + 1 - (i + 1)) 1 =
        some (Bsh.write_at i x) := by
      rw [hc0]
      exact shift_left_zero _ _ _
    have hrem := remove_eq ⟨Bsh.write_at i x, v.len + 1⟩ i
      (show i < v.len + 1 by omega) _ hsl
    refine ⟨_, _, hrem, hBw0, ?_, ?_⟩
    · show v.len + 1 - 1 = v.len
      omega
    · intro j hj
      show (Bsh.write_at i x).mem j = v.buf.mem j
      rw [hBwne j (by omega), hsh1 j (by omega), hB3 j hj]
  · have hiv : i < v.len := by omega
    have hcnt : v.len + 1 - (i + 1) = v.len - i := by omega
    have hslspec := shift_left_spec (Bsh.write_at i x) (i + 1) (v.len - i) 1
      (by omega) (by omega)
    have hsl : (Bsh.write_at i x).shift_left (i + 1) (v.len + 1 - (i + 1)) 1 =
        some { (Bsh.write_at i x) with mem := (fun j =>
          if i + 1 - 1 ≤ j ∧ j < i + 1 - 1 + (v.len - i)
          then (Bsh.write_at i x).mem (j + 1)
          else (Bsh.write_at i x).mem j) } := by
      rw [hcnt]
      exact hslspec
    have hrem := remove_eq ⟨Bsh.write_at i x, v.len + 1⟩ i
      (show i < v.len + 1 by omega) _ hsl
    refine ⟨_, _, hrem, hBw0, ?_, ?_⟩
    · show v.len + 1 - 1 = v.len
      omega
    · intro j hj
      by_cases hji : j < i
      · show (if i + 1 - 1 ≤ j ∧ j < i + 1 - 1 + (v.len - i)
            then (Bsh.write_at i x).mem (j + 1)
            else (Bsh.write_at i x).mem j) = v.buf.mem j
        rw [if_neg (by omega)]
        rw [hBwne j (by omega), hsh1 j (by omega), hB3 j hj]
      · show (if i + 1 - 1 ≤ j ∧ j < i + 1 - 1 + (v.len - i)
            then (Bsh.write_at i x).mem (j + 1)
            else (Bsh.write_at i x).mem j) = v.buf.mem j
        rw [if_pos (by omega)]
        rw [hBwne (j + 1) (by omega), hsh2 (j + 1) (by omega) (by omega)]
        have hj1 : j + 1 - 1 = j := rfl
        rw [hj1, hB3 j hj]

/-- C8 witness: the amended round-trip law evaluated on the container
[10, 20, 30] (element size 4) with insert position 1 and element 99. -/
theorem C8_insert_remove_roundtrip_witness :
    (1 : Nat) ≤ (mkVec [10, 20, 30] : Vec Nat).len ∧
      ∃ v1, (mkVec [10, 20, 30] : Vec Nat).insert 4 1 99 = some v1 ∧
        ∃ r v2, v1.remove 1 = some (r, v2) ∧ r = some 99 ∧
          v2.len = (mkVec [10, 20, 30] : Vec Nat).len ∧
          ∀ j, j < (mkVec [10, 20, 30] : Vec Nat).len →
            v2.buf.mem j = (mkVec [10, 20, 30] : Vec Nat).buf.mem j :=
  ⟨by decide, C8_insert_remove_roundtrip 4 (mkVec [10, 20, 30]) 1 99
    (by decide) (by decide) (by decide) (by decide) (by decide)⟩

/-- C9 counterexample: shift_right with count = 0 is not a guaranteed no-op.
On a fresh RawVec (capacity 0), shift_right(0, 0, 1) computes new_end = 1 >
capacity and calls reserve, growing the capacity to 8 and calling the
allocator, so a buffer field (the capacity) changes. -/
theorem C9_shift_zero_counterexample :
    (RawVec.new : RawVec Nat).cap = 0 ∧ (RawVec.new : RawVec Nat).allocs = 0 ∧
      ((RawVec.new : RawVec Nat).shift_right 1 0 0 1).map
        (fun r => (r.cap, r.allocs)) = some (8, 1) ∧ (8 : Nat) ≠ 0 :=
  ⟨rfl, rfl, by decide, by decide⟩

/-- C9 amended: shift_left with count = 0 is a complete no-op; shift_right
with count = 0 moves no element and, provided index + places does not exceed
the current capacity, changes no buffer field either - but when index + places
exceeds the capacity it grows the buffer via reserve. -/
theorem C9_shift_zero_amended (esz : Nat) (rv : RawVec α) (index places : Nat)
    (h : index + places ≤ rv.cap) (hcap : rv.cap ≤ usizeMax) :
    rv.shift_left index 0 places = some rv ∧
      ∃ r, rv.shift_right esz index 0 places = some r ∧
        r.cap = rv.cap ∧ r.allocs = rv.allocs ∧ ∀ j, r.mem j = rv.mem j := by
  refine ⟨shift_left_zero rv index places, ?_⟩
  have hsr := shift_right_no_grow esz rv index 0 places (by omega) hcap
  refine ⟨_, hsr, rfl, rfl, ?_⟩
  intro j
  show (if index + places ≤ j ∧ j < index + places + 0
      then rv.mem (j - places) else rv.mem j) = rv.mem j
  rw [if_neg (by omega)]

/-- C9 witness: the amended count-zero law evaluated on the buffer of the
container [1, 2, 3] at index 1, places 1. -/
theorem C9_shift_zero_amended_witness :
    1 + 1 ≤ (mkVec [1, 2, 3] : Vec Nat).buf.cap ∧
      (mkVec [1, 2, 3] : Vec Nat).buf.shift_left 1 0 1 =
        some (mkVec [1, 2, 3] : Vec Nat).buf :=
  ⟨by decide, (C9_shift_zero_amended 4 (mkVec [1, 2, 3] : Vec Nat).buf 1 1
    (by decide) (by decide)).1⟩

/-- C10 counterexample: with_capacity(n) does not produce capacity n for every
n ≥ 1. At n = 2^63 (element size 1) the Layout::array byte-size check
overflows isize::MAX and the call is fatal, producing no container at all. -/
theorem C10_with_capacity_counterexample :
    (Vec.with_capacity (α := Nat) 1 (2 ^ 63)).isSome = false ∧
      (1 : Nat) ≤ 2 ^ 63 :=
  ⟨by decide, by decide⟩

/-- C10 amended: for a non-zero-sized element type (within the layout bound
n * esz ≤ isize::MAX), with_capacity(0) produces capacity MIN_NON_ZERO_CAP = 8
with an allocation, new() produces capacity 0 with no allocation, and for
every n ≥ 1 with_capacity(n) produces capacity exactly n; requests beyond the
layout bound are fatal. -/
theorem C10_with_capacity_amended (esz : Nat) (h1 : 0 < esz)
    (h8 : MIN_NON_ZERO_CAP * esz ≤ isizeMax) :
    (∃ w : Vec α, Vec.with_capacity esz 0 = some w ∧
        w.buf.cap = MIN_NON_ZERO_CAP ∧ w.buf.allocs = 1) ∧
      (Vec.new : Vec α).buf.cap = 0 ∧ (Vec.new : Vec α).buf.allocs = 0 ∧
      ∀ n, 1 ≤ n → n * esz ≤ isizeMax →
        ∃ w : Vec α, Vec.with_capacity esz n = some w ∧ w.buf.cap = n := by
  refine ⟨?_, rfl, rfl, ?_⟩
  · have h0 : (if (0 : Nat) = 0 then MIN_NON_ZERO_CAP else 0) * esz ≤
        isizeMax := by
      rw [if_pos rfl]
      exact h8
    have hwc := with_capacity_some (α := α) esz 0 (by omega) h0
    refine ⟨⟨⟨fun _ => none, if (0 : Nat) = 0 then MIN_NON_ZERO_CAP else 0, 1⟩,
      0⟩, ?_, ?_, rfl⟩
    · simp only [Vec.with_capacity, hwc, Option.map_some']
    · show (if (0 : Nat) = 0 then MIN_NON_ZERO_CAP else 0) = MIN_NON_ZERO_CAP
      rw [if_pos rfl]
  · intro n hn hsz
    have hn0 : ¬ n = 0 := by omega
    have hcnd : (if n = 0 then MIN_NON_ZERO_CAP else n) * esz ≤ isizeMax := by
      rw [if_neg hn0]
      exact hsz
    have hwc := with_capacity_some (α := α) esz n (by omega) hcnd
    refine ⟨⟨⟨fun _ => none, if n = 0 then MIN_NON_ZERO_CAP else n, 1⟩, 0⟩,
      ?_, ?_⟩
    · simp only [Vec.with_capacity, hwc, Option.map_some']
    · show (if n = 0 then MIN_NON_ZERO_CAP else n) = n
      rw [if_neg hn0]

/-- C10 witness: the amended with_capacity law evaluated at element size 4:
with_capacity(0) reports capacity 8. -/
theorem C10_with_capacity_amended_witness :
    (0 : Nat) < 4 ∧
      (Vec.with_capacity (α := Nat) 4 0).map (fun w => w.buf.cap) =
        some MIN_NON_ZERO_CAP := by
  refine ⟨by decide, ?_⟩
  obtain ⟨w, hw, hcap, _⟩ :=
    (C10_with_capacity_amended (α := Nat) 4 (by decide) (by decide)).1
  rw [hw, Option.map_some', hcap]

end CustomVector
